import Mathlib

/-!
# Segmentizer: `lib/ExtractCodeSegment.cc`

A shallow embedding of the segment tracker (`CodeSegmentList`), the position
resolution (`getLineAndOffset`) and the emission loop
(`ExtractCodeSegmentConsumer::HandleTopLevelDecl`), followed by theorems that
relate this code to its specification.

Modelling conventions
* `int64_t` fields are `Int`; the `unsigned` results of the source manager are
  `Nat`. An `unsigned` stored into an `int64_t` and incremented once never
  wraps, so `line++` is `line + 1`. Passing the line back to the `unsigned`
  parameter of `translateLineCol` is `Int.toNat`: a clang buffer is shorter
  than `2 ^ 31` bytes, so no line number reaches `2 ^ 32 - 1`.
* The conversion of an `int64_t` to the `size_t` parameters of
  `StringRef::substr` does wrap: it is `toSizeT`, reduction modulo `2 ^ 64`.
* A buffer (`StringRef`) is a `List Char`, one `Char` per byte.
* `assert` is enabled: a failed assertion ends the operation with
  `Outcome.assertionFailed`, and the tracker is returned as it was at that
  point (nothing after the assertion has run).
* The clang `SourceManager` is outside the repository; it is a parameter, a
  record of the six queries the code makes.
-/

namespace Segmentizer

/-! ## Host interface (clang) -/

/-- An opaque file handle (`clang::FileID`). -/
structure FileID where
  ID : Int
  deriving DecidableEq, Repr

/-- An opaque source location (`clang::SourceLocation`, its raw encoding). -/
structure SourceLocation where
  ID : Nat
  deriving DecidableEq, Repr

/-- A buffer of bytes (`llvm::StringRef`). -/
abbrev StringRef := List Char

/-- The queries `ExtractCodeSegment.cc` makes of `clang::SourceManager`.
`getFileEntryName fid` stands for `getFileEntryForID(fid)->getName()`; the code
dereferences the file entry without a null check, and the model covers the file
handles that have an entry. -/
structure SourceManager where
  getExpansionLineNumber : SourceLocation → Nat
  getFileID : SourceLocation → FileID
  translateLineCol : FileID → Nat → Nat → SourceLocation
  getFileOffset : SourceLocation → Nat
  getFileEntryName : FileID → String
  getBufferData : FileID → StringRef

/-! ## Data model -/

/-- The struct `CodeSegmentLoc`: a line and the byte offset of its column 1. -/
structure CodeSegmentLoc where
  line : Int
  offset : Int
  deriving DecidableEq, Repr

/-- The default constructor `CodeSegmentLoc()`: both fields are `-1`. -/
def CodeSegmentLoc.unset : CodeSegmentLoc := ⟨-1, -1⟩

/-- The struct `CodeSegment`. -/
structure CodeSegment where
  fid : FileID
  start : CodeSegmentLoc
  end_ : CodeSegmentLoc
  closed : Bool
  deriving DecidableEq, Repr

/-- The constructor `CodeSegment(FileID fid)`: open, both positions unset. -/
def CodeSegment.new (fid : FileID) : CodeSegment :=
  { fid := fid, start := CodeSegmentLoc.unset, end_ := CodeSegmentLoc.unset, closed := false }

/-- The class `CodeSegmentList`: the vector `segments`, in insertion order. -/
structure CodeSegmentList where
  segments : List CodeSegment
  deriving DecidableEq, Repr

/-- A freshly constructed `CodeSegmentList`. -/
def CodeSegmentList.empty : CodeSegmentList := ⟨[]⟩

/-- The accessor `CodeSegmentList::data`. -/
def CodeSegmentList.data (l : CodeSegmentList) : List CodeSegment := l.segments

/-- How an operation guarded by an `assert` ends. -/
inductive Outcome where
  | ok
  | assertionFailed (msg : String)
  deriving DecidableEq, Repr

/-! ## Position resolution and the tracker -/

/-- The private method `CodeSegmentList::getLineAndOffset`; the default
argument `start = true` is passed explicitly by `startSegment`. -/
def getLineAndOffset (SM : SourceManager) (sloc : SourceLocation) (start : Bool) :
    Int × Int :=
  let line : Int := (SM.getExpansionLineNumber sloc : Int)
  let line : Int := if !start then line + 1 else line
  let firstCol := SM.translateLineCol (SM.getFileID sloc) line.toNat 1
  let offset : Int := (SM.getFileOffset firstCol : Int)
  (line, offset)

/-- The condition of the assertion in `startSegment`:
`segments.empty() || segments.back().closed`. -/
def startAssertion (l : CodeSegmentList) : Bool :=
  match l.segments.getLast? with
  | none => true
  | some s => s.closed

/-- The condition of the assertion in `endSegment`:
`!segments.empty() && !segments.back().closed`. -/
def endAssertion (l : CodeSegmentList) : Bool :=
  match l.segments.getLast? with
  | none => false
  | some s => !s.closed

/-- The method `CodeSegmentList::startSegment`. -/
def startSegment (SM : SourceManager) (sloc : SourceLocation) (l : CodeSegmentList) :
    Outcome × CodeSegmentList :=
  if startAssertion l then
    let (line, offset) := getLineAndOffset SM sloc true
    let cs := CodeSegment.new (SM.getFileID sloc)
    let cs := { cs with start := ⟨line, offset⟩ }
    (Outcome.ok, ⟨l.segments ++ [cs]⟩)
  else
    (Outcome.assertionFailed "The last segment should be properly closed.", l)

/-- The method `CodeSegmentList::endSegment`. The two assignments through
`segments.back()` rewrite the last element in place. -/
def endSegment (SM : SourceManager) (sloc : SourceLocation) (l : CodeSegmentList) :
    Outcome × CodeSegmentList :=
  match l.segments.getLast? with
  | some s =>
    if !s.closed then
      let (line, offset) := getLineAndOffset SM sloc false
      let s := { s with end_ := ⟨line, offset⟩ }
      let s := { s with closed := true }
      (Outcome.ok, ⟨l.segments.dropLast ++ [s]⟩)
    else
      (Outcome.assertionFailed "The last segment should be unclosed.", l)
  | none => (Outcome.assertionFailed "The last segment should be unclosed.", l)

/-! ## Pragma events -/

/-- A marker seen by the preprocessor, with `PragmaTok.getLocation()`. -/
inductive PragmaEvent where
  | start_segment (sloc : SourceLocation)
  | end_segment (sloc : SourceLocation)
  deriving DecidableEq, Repr

/-- The two `HandlePragma` overrides: each forwards the token's location to the
tracker. -/
def HandlePragma (SM : SourceManager) (ev : PragmaEvent) (l : CodeSegmentList) :
    Outcome × CodeSegmentList :=
  match ev with
  | .start_segment sloc => startSegment SM sloc l
  | .end_segment sloc => endSegment SM sloc l

/-- The preprocessor delivering a sequence of markers in order; a failed
assertion stops the run. -/
def handlePragmas (SM : SourceManager) : List PragmaEvent → CodeSegmentList →
    Outcome × CodeSegmentList
  | [], l => (Outcome.ok, l)
  | ev :: evs, l =>
    match HandlePragma SM ev l with
    | (Outcome.ok, l') => handlePragmas SM evs l'
    | (Outcome.assertionFailed msg, l') => (Outcome.assertionFailed msg, l')

/-! ## Emission -/

/-- Conversion of an `int64_t` to `size_t` (64 bits). -/
def toSizeT (x : Int) : Nat := (x % (2 : Int) ^ 64).toNat

/-- The library routine `StringRef::substr(size_t Start, size_t N)`:
`Start` is clamped to the length, `N` to what is left. -/
def substr (buf : StringRef) (start n : Nat) : StringRef :=
  let start := min start buf.length
  (buf.drop start).take (min n (buf.length - start))

/-- What one iteration of the emission loop writes to `llvm::outs()`: the file
name (followed by a newline) and the extracted text. -/
structure Emitted where
  name : String
  text : StringRef
  deriving DecidableEq, Repr

/-- The body of the loop in `HandleTopLevelDecl`, for one segment. -/
def emitSegment (SM : SourceManager) (seg : CodeSegment) : Emitted :=
  let name := SM.getFileEntryName seg.fid
  let buf := SM.getBufferData seg.fid
  { name := name
    text := substr buf (toSizeT seg.start.offset) (toSizeT (seg.end_.offset - seg.start.offset)) }

/-- The state the consumer works on: the tracker it holds by reference and what
has been written to `llvm::outs()` so far. -/
structure PluginState where
  segs : CodeSegmentList
  outs : List Emitted
  deriving DecidableEq, Repr

/-- The method `ExtractCodeSegmentConsumer::HandleTopLevelDecl`: one pass over
`segs.data()`, writing for every element; returns `true`. -/
def HandleTopLevelDecl (SM : SourceManager) (st : PluginState) : Bool × PluginState :=
  let outs := st.segs.data.foldl (fun os seg => os ++ [emitSegment SM seg]) st.outs
  (true, { st with outs := outs })

/-- The output written by one emission pass over a tracker, starting from an
empty stream. -/
def emit (SM : SourceManager) (l : CodeSegmentList) : List Emitted :=
  (HandleTopLevelDecl SM ⟨l, []⟩).2.outs

/-- The characters that reach the stream for a list of writes. -/
def render (os : List Emitted) : List Char :=
  os.flatMap (fun o => o.name.toList ++ ['\n'] ++ o.text)

/-! ## Lines of a buffer -/

/-- Modelled from the spec: the line table of a buffer, which lives in clang and
not in the repository. Scanning from position `pos`, the offsets at which a new
line begins, one right after every newline byte. -/
def lineOffsetsFrom (pos : Nat) : StringRef → List Nat
  | [] => []
  | c :: cs =>
    if c = '\n' then (pos + 1) :: lineOffsetsFrom (pos + 1) cs
    else lineOffsetsFrom (pos + 1) cs

/-- Modelled from the spec: the offsets of column 1 of lines 1, 2, ... of a
buffer. Line 1 begins at offset 0. -/
def lineOffsets (buf : StringRef) : List Nat := 0 :: lineOffsetsFrom 0 buf

/-- Modelled from the spec: "the byte offset of column 1 of the line within the
document buffer", for a 1-based line; `none` when the buffer has no such
line. -/
def lineStartOffset (buf : StringRef) (line : Nat) : Option Nat :=
  if line = 0 then none else (lineOffsets buf)[line - 1]?

/-- The lines of a buffer, each with its terminating newline; the last element
is what follows the last newline (possibly nothing). -/
def splitLines : StringRef → List StringRef
  | [] => [[]]
  | c :: cs =>
    if c = '\n' then [c] :: splitLines cs
    else
      match splitLines cs with
      | [] => [[c]]
      | l :: ls => (c :: l) :: ls

/-- The bytes of lines `s` through `e` (1-based, inclusive) of a buffer. -/
def linesText (buf : StringRef) (s e : Nat) : StringRef :=
  (((splitLines buf).drop (s - 1)).take (e + 1 - s)).flatten

/-! ## A source manager over a table of files

Used for the concrete examples. A location is the pair of a file and a byte
offset, encoded as `file * 2 ^ 32 + offset`. A line past the end of the buffer
is translated to the last byte of the buffer, as clang does. -/

/-- The number of newline bytes among the first `n` bytes of a buffer. -/
def newlinesBefore (buf : StringRef) (n : Nat) : Nat := ((buf.take n).filter (· = '\n')).length

/-- The source manager of a table `files` of names and contents. -/
def tableSM (files : Int → String × StringRef) : SourceManager where
  getExpansionLineNumber := fun loc =>
    1 + newlinesBefore (files (loc.ID / 2 ^ 32 : Nat)).2 (loc.ID % 2 ^ 32)
  getFileID := fun loc => ⟨(loc.ID / 2 ^ 32 : Nat)⟩
  translateLineCol := fun fid line _ =>
    let buf := (files fid.ID).2
    ⟨fid.ID.toNat * 2 ^ 32 + (lineStartOffset buf line).getD (buf.length - 1)⟩
  getFileOffset := fun loc => loc.ID % 2 ^ 32
  getFileEntryName := fun fid => (files fid.ID).1
  getBufferData := fun fid => (files fid.ID).2

/-- The location of byte `offset` of file `file` under `tableSM`. -/
def locAt (file offset : Nat) : SourceLocation := ⟨file * 2 ^ 32 + offset⟩

/-- Two small files: file 1 is `a.c`, file 2 is `b.c`. -/
def demoFiles : Int → String × StringRef
  | 1 => ("a.c", "A\nB\nC\nD\n".toList)
  | 2 => ("b.c", "x\nyy\nzzz".toList)
  | _ => ("", [])

/-- The source manager of `demoFiles`. -/
def demoSM : SourceManager := tableSM demoFiles

/-- An open segment of `a.c`: started on line 2 (offset 2), end unset. -/
def demoOpenSegment : CodeSegment := ⟨⟨1⟩, ⟨2, 2⟩, CodeSegmentLoc.unset, false⟩

/-- A closed segment of `a.c` whose end offset 2 is smaller than its start
offset 4. -/
def demoInvertedSegment : CodeSegment := ⟨⟨1⟩, ⟨3, 4⟩, ⟨2, 2⟩, true⟩

/-- An open segment of `b.c`: started on line 2 (offset 2), end unset. -/
def demoOpenSegmentB : CodeSegment := ⟨⟨2⟩, ⟨2, 2⟩, CodeSegmentLoc.unset, false⟩

/-! ## Marker pairs -/

/-- The open segment a start marker at `sloc` appends. -/
def startedSegment (SM : SourceManager) (sloc : SourceLocation) : CodeSegment :=
  { fid := SM.getFileID sloc
    start := ⟨(getLineAndOffset SM sloc true).1, (getLineAndOffset SM sloc true).2⟩
    end_ := CodeSegmentLoc.unset
    closed := false }

/-- The segment `s` after an end marker at `sloc` has closed it. -/
def endedSegment (SM : SourceManager) (sloc : SourceLocation) (s : CodeSegment) : CodeSegment :=
  { fid := s.fid
    start := s.start
    end_ := ⟨(getLineAndOffset SM sloc false).1, (getLineAndOffset SM sloc false).2⟩
    closed := true }

/-- The events of a well-formed run: for every marker pair, its start marker
followed by its end marker. -/
def pairEvents (ps : List (SourceLocation × SourceLocation)) : List PragmaEvent :=
  ps.flatMap (fun p => [PragmaEvent.start_segment p.1, PragmaEvent.end_segment p.2])

/-- The closed segment a marker pair leaves in the tracker. -/
def pairSegment (SM : SourceManager) (p : SourceLocation × SourceLocation) : CodeSegment :=
  { fid := SM.getFileID p.1
    start := ⟨SM.getExpansionLineNumber p.1,
      SM.getFileOffset (SM.translateLineCol (SM.getFileID p.1) (SM.getExpansionLineNumber p.1) 1)⟩
    end_ := ⟨SM.getExpansionLineNumber p.2 + 1,
      SM.getFileOffset (SM.translateLineCol (SM.getFileID p.2) (SM.getExpansionLineNumber p.2 + 1) 1)⟩
    closed := true }

/-- The output expected for a marker pair: the name of the file of the start
marker, and the text of that file's buffer from the offset stored for the start
marker, of the length given by the two stored offsets. -/
def pairOutput (SM : SourceManager) (p : SourceLocation × SourceLocation) : Emitted :=
  { name := SM.getFileEntryName (SM.getFileID p.1)
    text := substr (SM.getBufferData (SM.getFileID p.1))
      (toSizeT (pairSegment SM p).start.offset)
      (toSizeT ((pairSegment SM p).end_.offset - (pairSegment SM p).start.offset)) }

/-! ## Byte ranges and offsets used in the statements -/

/-- The start offsets of consecutive chunks laid out from position `pos`. -/
def chunkStarts (pos : Nat) : List StringRef → List Nat
  | [] => []
  | l :: ls => pos :: chunkStarts (pos + l.length) ls

/-- The half-open byte range `[a, b)` of a buffer. -/
def slice (buf : StringRef) (a b : Nat) : StringRef := (buf.drop a).take (b - a)

/-- The offset of column 1 of the line of `sloc`, looked up in file `fid`. -/
def startOffsetIn (SM : SourceManager) (fid : FileID) (sloc : SourceLocation) : Nat :=
  SM.getFileOffset (SM.translateLineCol fid (SM.getExpansionLineNumber sloc) 1)

/-- The offset of column 1 of the line after the line of `sloc`, looked up in
file `fid`. -/
def endOffsetIn (SM : SourceManager) (fid : FileID) (sloc : SourceLocation) : Nat :=
  SM.getFileOffset (SM.translateLineCol fid (SM.getExpansionLineNumber sloc + 1) 1)

/-! ## Invariants and event sequences used in the statements -/

/-- The number of open segments of a tracker. -/
def openCount (l : CodeSegmentList) : Nat :=
  (l.segments.filter (fun s => !s.closed)).length

/-- The location carried by a marker event. -/
def PragmaEvent.sloc : PragmaEvent → SourceLocation
  | .start_segment sloc => sloc
  | .end_segment sloc => sloc

/-- The source line of a marker event. -/
def eventLine (SM : SourceManager) (ev : PragmaEvent) : Nat :=
  SM.getExpansionLineNumber ev.sloc

/-- Strict alternation of an event sequence: `alternatesFrom true` holds of the
sequences start, end, start, ... and `alternatesFrom false` of the sequences
end, start, end, ...; the last event may be of either kind. -/
def alternatesFrom : Bool → List PragmaEvent → Bool
  | _, [] => true
  | expectStart, .start_segment _ :: evs => expectStart && alternatesFrom false evs
  | expectStart, .end_segment _ :: evs => !expectStart && alternatesFrom true evs

/-- The offset the source manager gives for column 1 of line `line` of file
`fid`. -/
def lineOffsetIn (SM : SourceManager) (fid : FileID) (line : Nat) : Nat :=
  SM.getFileOffset (SM.translateLineCol fid line 1)

/-- Every closed segment has its start offset at or before its end offset. -/
def ClosedRangesOrdered (segs : List CodeSegment) : Prop :=
  ∀ seg ∈ segs, seg.closed = true → seg.start.offset ≤ seg.end_.offset

/-- Every segment ends at or before the start of the segment that follows it. -/
def ConsecutiveOrdered (segs : List CodeSegment) : Prop :=
  segs.Chain' (fun a b => a.end_.offset ≤ b.start.offset)

/-- Every segment ends at or before the start of every later segment: no two
byte ranges overlap. -/
def NonOverlapping (segs : List CodeSegment) : Prop :=
  segs.Pairwise (fun a b => a.end_.offset ≤ b.start.offset)

/-- An open segment of `a.c`: started on line 1 (offset 0), end unset. -/
def demoOpenSegmentA1 : CodeSegment := ⟨⟨1⟩, ⟨1, 0⟩, CodeSegmentLoc.unset, false⟩

/-- Two marker pairs in `a.c`, in document order: lines 1 to 2 and 3 to 4. -/
def demoEvents : List PragmaEvent :=
  [PragmaEvent.start_segment (locAt 1 0), PragmaEvent.end_segment (locAt 1 2),
   PragmaEvent.start_segment (locAt 1 4), PragmaEvent.end_segment (locAt 1 6)]

/-! ## Auxiliary facts -/

theorem foldl_emit_eq (f : CodeSegment → Emitted) (segs : List CodeSegment) (init : List Emitted) :
    segs.foldl (fun os seg => os ++ [f seg]) init = init ++ segs.map f := by
  induction segs generalizing init with
  | nil => simp
  | cons s rest ih => simp [List.foldl_cons, ih]

theorem HandleTopLevelDecl_outs (SM : SourceManager) (st : PluginState) :
    (HandleTopLevelDecl SM st).2.outs = st.outs ++ st.segs.segments.map (emitSegment SM) := by
  simp [HandleTopLevelDecl, CodeSegmentList.data, foldl_emit_eq]

theorem emit_eq_map (SM : SourceManager) (l : CodeSegmentList) :
    emit SM l = l.segments.map (emitSegment SM) := by
  simp [emit, HandleTopLevelDecl_outs]

theorem startAssertion_concat (segs : List CodeSegment) (s : CodeSegment) :
    startAssertion ⟨segs ++ [s]⟩ = s.closed := by
  simp [startAssertion]

theorem startSegment_ok (SM : SourceManager) (sloc : SourceLocation) (l : CodeSegmentList)
    (h : startAssertion l = true) :
    startSegment SM sloc l = (Outcome.ok, ⟨l.segments ++ [startedSegment SM sloc]⟩) := by
  simp [startSegment, h, CodeSegment.new, startedSegment]

theorem endSegment_ok (SM : SourceManager) (sloc : SourceLocation) (segs : List CodeSegment)
    (s : CodeSegment) (h : s.closed = false) :
    endSegment SM sloc ⟨segs ++ [s]⟩ = (Outcome.ok, ⟨segs ++ [endedSegment SM sloc s]⟩) := by
  simp [endSegment, h, endedSegment]

theorem getLineAndOffset_start (SM : SourceManager) (sloc : SourceLocation) :
    getLineAndOffset SM sloc true =
      ((SM.getExpansionLineNumber sloc : Int),
       (SM.getFileOffset (SM.translateLineCol (SM.getFileID sloc)
          (SM.getExpansionLineNumber sloc) 1) : Int)) := by
  simp [getLineAndOffset]

theorem getLineAndOffset_end (SM : SourceManager) (sloc : SourceLocation) :
    getLineAndOffset SM sloc false =
      ((SM.getExpansionLineNumber sloc : Int) + 1,
       (SM.getFileOffset (SM.translateLineCol (SM.getFileID sloc)
          (SM.getExpansionLineNumber sloc + 1) 1) : Int)) := by
  have h : ((SM.getExpansionLineNumber sloc : Int) + 1).toNat = SM.getExpansionLineNumber sloc + 1 := by
    omega
  simp [getLineAndOffset, h]

theorem handlePragmas_pair (SM : SourceManager) (p : SourceLocation × SourceLocation)
    (l : CodeSegmentList) (h : startAssertion l = true) (rest : List PragmaEvent) :
    handlePragmas SM (PragmaEvent.start_segment p.1 :: PragmaEvent.end_segment p.2 :: rest) l =
      handlePragmas SM rest ⟨l.segments ++ [pairSegment SM p]⟩ := by
  simp only [handlePragmas, HandlePragma, startSegment_ok SM p.1 l h]
  rw [endSegment_ok SM p.2 l.segments _ rfl]
  simp [pairSegment, startedSegment, endedSegment, getLineAndOffset_start, getLineAndOffset_end,
    CodeSegmentLoc.unset]

theorem handlePragmas_pairEvents (SM : SourceManager) (ps : List (SourceLocation × SourceLocation))
    (l : CodeSegmentList) (h : startAssertion l = true) :
    handlePragmas SM (pairEvents ps) l = (Outcome.ok, ⟨l.segments ++ ps.map (pairSegment SM)⟩) := by
  induction ps generalizing l with
  | nil => simp [pairEvents, handlePragmas]
  | cons p ps ih =>
    have hcons : pairEvents (p :: ps) =
        PragmaEvent.start_segment p.1 :: PragmaEvent.end_segment p.2 :: pairEvents ps := by
      simp [pairEvents]
    rw [hcons, handlePragmas_pair SM p l h, ih]
    · simp
    · rw [startAssertion_concat]; rfl

theorem emitSegment_pairSegment (SM : SourceManager) (p : SourceLocation × SourceLocation) :
    emitSegment SM (pairSegment SM p) = pairOutput SM p := by
  simp [emitSegment, pairOutput, pairSegment]

theorem splitLines_ne_nil (buf : StringRef) : splitLines buf ≠ [] := by
  cases buf with
  | nil => simp [splitLines]
  | cons c cs =>
    simp only [splitLines]
    split
    · simp
    · split <;> simp

theorem splitLines_flatten (buf : StringRef) : (splitLines buf).flatten = buf := by
  induction buf with
  | nil => simp [splitLines]
  | cons c cs ih =>
    simp only [splitLines]
    split
    · simp [ih]
    · split
      · next h => exact absurd h (splitLines_ne_nil cs)
      · next l ls h =>
        rw [h] at ih
        simp only [List.flatten_cons] at ih ⊢
        rw [List.cons_append, ih]

theorem lineOffsets_eq_chunkStarts (buf : StringRef) (pos : Nat) :
    pos :: lineOffsetsFrom pos buf = chunkStarts pos (splitLines buf) := by
  induction buf generalizing pos with
  | nil => simp [splitLines, lineOffsetsFrom, chunkStarts]
  | cons c cs ih =>
    simp only [splitLines, lineOffsetsFrom]
    split
    · simp [chunkStarts, ih]
    · split
      · next h => exact absurd h (splitLines_ne_nil cs)
      · next l ls h =>
        have := ih (pos + 1)
        rw [h] at this
        simp only [chunkStarts, List.cons.injEq, true_and] at this
        simp only [chunkStarts, List.length_cons, List.cons.injEq, true_and]
        rw [this]
        congr 1
        omega

theorem chunkStarts_getElem? (ls : List StringRef) (pos k : Nat) :
    (chunkStarts pos ls)[k]? =
      if k < ls.length then some (pos + ((ls.take k).flatten).length) else none := by
  induction ls generalizing pos k with
  | nil => simp [chunkStarts]
  | cons l ls ih =>
    cases k with
    | zero => simp [chunkStarts]
    | succ k =>
      simp only [chunkStarts, List.getElem?_cons_succ, ih, List.length_cons, List.take_succ_cons,
        List.flatten_cons, List.length_append, Nat.add_lt_add_iff_right]
      split <;> simp [Nat.add_assoc]

theorem lineStartOffset_eq (buf : StringRef) (line off : Nat)
    (h : lineStartOffset buf line = some off) :
    1 ≤ line ∧ line ≤ (splitLines buf).length ∧
      off = (((splitLines buf).take (line - 1)).flatten).length := by
  unfold lineStartOffset at h
  split at h
  · simp at h
  · next hne =>
    rw [lineOffsets, lineOffsets_eq_chunkStarts, chunkStarts_getElem?] at h
    split at h
    · injection h with h
      refine ⟨by omega, by omega, by omega⟩
    · simp at h

theorem flatten_slice (ls : List StringRef) (a b : Nat) (hab : a ≤ b) :
    (ls.flatten.drop ((ls.take a).flatten).length).take
        (((ls.take b).flatten).length - ((ls.take a).flatten).length) =
      ((ls.drop a).take (b - a)).flatten := by
  have h1 : ls.flatten = (ls.take a).flatten ++
      (((ls.drop a).take (b - a)).flatten ++ ((ls.drop a).drop (b - a)).flatten) := by
    rw [← List.flatten_append, ← List.flatten_append, List.take_append_drop,
      List.take_append_drop]
  have h2 : (ls.take b).flatten =
      (ls.take a).flatten ++ ((ls.drop a).take (b - a)).flatten := by
    have : b = a + (b - a) := by omega
    conv_lhs => rw [this]
    rw [List.take_add, List.flatten_append]
  rw [h2, h1, List.length_append, Nat.add_sub_cancel_left, List.drop_left, List.take_left]

theorem substr_eq_drop_take (buf : StringRef) (a n : Nat) :
    substr buf a n = (buf.drop a).take n := by
  simp only [substr]
  by_cases ha : a ≤ buf.length
  · rw [min_eq_left ha]
    by_cases hn : n ≤ buf.length - a
    · rw [min_eq_left hn]
    · rw [min_eq_right (by omega)]
      rw [List.take_of_length_le (by simp), List.take_of_length_le (by simp; omega)]
  · have hle : buf.length ≤ a := Nat.le_of_lt (Nat.lt_of_not_le ha)
    rw [min_eq_right hle, List.drop_of_length_le hle, List.drop_of_length_le (Nat.le_refl _)]
    simp

theorem toSizeT_natCast (n : Nat) (h : n < 2 ^ 64) : toSizeT (n : Int) = n := by
  unfold toSizeT
  omega

theorem toSizeT_sub (a b : Nat) (hab : a ≤ b) (h : b < 2 ^ 64) :
    toSizeT ((b : Int) - (a : Int)) = b - a := by
  unfold toSizeT
  omega

theorem splitLines_terminated (buf : StringRef) (k : Nat) (l : StringRef)
    (hk : (splitLines buf)[k]? = some l) (hlast : k + 1 < (splitLines buf).length) :
    l.getLast? = some '\n' := by
  induction buf generalizing k l with
  | nil => simp [splitLines] at hlast
  | cons c cs ih =>
    simp only [splitLines] at hk hlast
    split at hk
    · next hc =>
      rw [if_pos hc] at hlast
      cases k with
      | zero => simp at hk; subst hk; simp [hc]
      | succ k =>
        simp only [List.getElem?_cons_succ] at hk
        exact ih k l hk (by simpa using hlast)
    · next hc =>
      rw [if_neg hc] at hlast
      split at hk
      · next h => exact absurd h (splitLines_ne_nil cs)
      · next l0 ls h =>
        rw [h] at hlast ih
        cases k with
        | zero =>
          simp at hk
          subst hk
          have h0 := ih 0 l0 (by simp) (by simpa using hlast)
          cases l0 with
          | nil => simp at h0
          | cons x xs => simpa [List.getLast?_cons_cons] using h0
        | succ k =>
          simp only [List.getElem?_cons_succ] at hk
          exact ih (k + 1) l (by simpa using hk) (by simpa using hlast)

theorem flatten_take_length_le (ls : List StringRef) (a b : Nat) (hab : a ≤ b) :
    ((ls.take a).flatten).length ≤ ((ls.take b).flatten).length ∧
      ((ls.take b).flatten).length ≤ (ls.flatten).length := by
  have h2 : (ls.take b).flatten =
      (ls.take a).flatten ++ ((ls.drop a).take (b - a)).flatten := by
    have : b = a + (b - a) := by omega
    conv_lhs => rw [this]
    rw [List.take_add, List.flatten_append]
  have h3 : ls.flatten = (ls.take b).flatten ++ (ls.drop b).flatten := by
    rw [← List.flatten_append, List.take_append_drop]
  constructor
  · rw [h2, List.length_append]; omega
  · rw [h3, List.length_append]; omega

theorem substr_lines (buf : StringRef) (s e os oe : Nat) (hlen : buf.length < 2 ^ 64)
    (hse : s ≤ e) (hos : lineStartOffset buf s = some os)
    (hoe : lineStartOffset buf (e + 1) = some oe) :
    substr buf (toSizeT (os : Int)) (toSizeT ((oe : Int) - (os : Int))) = linesText buf s e := by
  obtain ⟨hs1, _, hA⟩ := lineStartOffset_eq buf s os hos
  obtain ⟨_, _, hB⟩ := lineStartOffset_eq buf (e + 1) oe hoe
  simp only [Nat.add_sub_cancel] at hB
  have hmono := flatten_take_length_le (splitLines buf) (s - 1) e (by omega)
  rw [splitLines_flatten] at hmono
  rw [← hA, ← hB] at hmono
  rw [toSizeT_natCast os (by omega), toSizeT_sub os oe hmono.1 (by omega), substr_eq_drop_take]
  have hslice := flatten_slice (splitLines buf) (s - 1) e (by omega)
  rw [splitLines_flatten, ← hA, ← hB] at hslice
  have hn : e - (s - 1) = e + 1 - s := by omega
  rw [hslice, linesText, hn]

theorem lines_terminated (buf : StringRef) (s e oe : Nat) (hs : 1 ≤ s)
    (hoe : lineStartOffset buf (e + 1) = some oe) :
    ∀ l ∈ ((splitLines buf).drop (s - 1)).take (e + 1 - s), l.getLast? = some '\n' := by
  obtain ⟨_, hlen, _⟩ := lineStartOffset_eq buf (e + 1) oe hoe
  intro l hl
  obtain ⟨i, hi⟩ := List.mem_iff_getElem?.mp hl
  rw [List.getElem?_take] at hi
  split at hi
  · next hlt =>
    rw [List.getElem?_drop] at hi
    exact splitLines_terminated buf _ l hi (by omega)
  · simp at hi

theorem lines_count (buf : StringRef) (s e oe : Nat) (hs : 1 ≤ s) (hse : s ≤ e)
    (hoe : lineStartOffset buf (e + 1) = some oe) :
    (((splitLines buf).drop (s - 1)).take (e + 1 - s)).length = e + 1 - s := by
  obtain ⟨_, hlen, _⟩ := lineStartOffset_eq buf (e + 1) oe hoe
  rw [List.length_take, List.length_drop]
  omega

theorem substr_eq_slice (buf : StringRef) (a b : Nat) (hab : a ≤ b) (hb : b < 2 ^ 64) :
    substr buf (toSizeT (a : Int)) (toSizeT ((b : Int) - (a : Int))) = slice buf a b := by
  rw [toSizeT_natCast a (by omega), toSizeT_sub a b hab hb, substr_eq_drop_take, slice]

theorem substr_infix (buf : StringRef) (a n : Nat) : substr buf a n <:+: buf := by
  rw [substr_eq_drop_take]
  exact List.IsInfix.trans (List.take_prefix _ _).isInfix (List.drop_suffix _ _).isInfix

theorem endAssertion_iff (l : CodeSegmentList) :
    endAssertion l = true ↔ ∃ segs s, l = ⟨segs ++ [s]⟩ ∧ s.closed = false := by
  constructor
  · intro h
    unfold endAssertion at h
    split at h
    · exact absurd h (by simp)
    · next s hs =>
      refine ⟨l.segments.dropLast, s, ?_, by simpa using h⟩
      have hl : l.segments.dropLast ++ [s] = l.segments :=
        List.dropLast_append_getLast? s (by rw [hs]; rfl)
      cases l
      simp_all
  · rintro ⟨segs, s, rfl, hs⟩
    simp [endAssertion, hs]

theorem HandlePragma_cases (SM : SourceManager) (ev : PragmaEvent) (l : CodeSegmentList) :
    ((HandlePragma SM ev l).1 ≠ Outcome.ok ∧ (HandlePragma SM ev l).2 = l) ∨
    (startAssertion l = true ∧ ∃ sloc, ev = PragmaEvent.start_segment sloc ∧
      HandlePragma SM ev l = (Outcome.ok, ⟨l.segments ++ [startedSegment SM sloc]⟩)) ∨
    (∃ sloc segs s, ev = PragmaEvent.end_segment sloc ∧ l = ⟨segs ++ [s]⟩ ∧ s.closed = false ∧
      HandlePragma SM ev l = (Outcome.ok, ⟨segs ++ [endedSegment SM sloc s]⟩)) := by
  cases ev with
  | start_segment sloc =>
    cases h : startAssertion l with
    | true =>
      exact Or.inr (Or.inl ⟨rfl, sloc, rfl, startSegment_ok SM sloc l h⟩)
    | false =>
      left
      simp [HandlePragma, startSegment, h]
  | end_segment sloc =>
    cases h : endAssertion l with
    | true =>
      obtain ⟨segs, s, rfl, hs⟩ := (endAssertion_iff l).mp h
      exact Or.inr (Or.inr ⟨sloc, segs, s, rfl, rfl, hs, endSegment_ok SM sloc segs s hs⟩)
    | false =>
      left
      unfold endAssertion at h
      simp only [HandlePragma, endSegment]
      split at h
      · next hl => simp [hl]
      · next s hl =>
        have hc : s.closed = true := by simpa using h
        simp [hl, hc]

theorem handlePragmas_preserves (SM : SourceManager) (P : CodeSegmentList → Prop)
    (hstep : ∀ ev l, P l → P (HandlePragma SM ev l).2) :
    ∀ evs l, P l → P (handlePragmas SM evs l).2 := by
  intro evs
  induction evs with
  | nil => intro l hl; simpa [handlePragmas] using hl
  | cons ev evs ih =>
    intro l hl
    have h := hstep ev l hl
    unfold handlePragmas
    cases hr : HandlePragma SM ev l with
    | mk o l' =>
      rw [hr] at h
      cases o with
      | ok => exact ih l' h
      | assertionFailed msg => exact h

theorem eq_nil_or_snoc (segs : List CodeSegment) :
    segs = [] ∨ ∃ init last, segs = init ++ [last] := by
  rcases List.eq_nil_or_concat segs with h | ⟨init, last, h⟩
  · exact Or.inl h
  · exact Or.inr ⟨init, last, by rw [h, List.concat_eq_append]⟩

theorem openCount_le_one_of_dropLast_closed (l : CodeSegmentList)
    (h : ∀ s ∈ l.segments.dropLast, s.closed = true) : openCount l ≤ 1 := by
  cases l with
  | mk segs =>
    rcases eq_nil_or_snoc segs with rfl | ⟨segs', s, rfl⟩
    · simp [openCount]
    · simp only [List.dropLast_concat] at h
      have hnil : segs'.filter (fun s => !s.closed) = [] := by
        rw [List.filter_eq_nil_iff]
        intro a ha
        simp [h a ha]
      simp only [openCount, List.filter_append, hnil, List.nil_append]
      exact (List.length_filter_le _ _).trans (by simp)

theorem HandlePragma_dropLast_closed (SM : SourceManager) (ev : PragmaEvent)
    (l : CodeSegmentList) (h : ∀ s ∈ l.segments.dropLast, s.closed = true) :
    ∀ s ∈ (HandlePragma SM ev l).2.segments.dropLast, s.closed = true := by
  rcases HandlePragma_cases SM ev l with ⟨_, h1⟩ | ⟨ha, sloc, _, h2⟩ | ⟨sloc, segs, s, _, rfl, _, h3⟩
  · rw [h1]; exact h
  · rw [h2]
    simp only [List.dropLast_concat]
    intro s hs
    rcases eq_nil_or_snoc l.segments with hnil | ⟨segs', s', hcat⟩
    · rw [hnil] at hs; simp at hs
    · rw [hcat] at hs h
      simp only [List.dropLast_concat] at h
      rcases List.mem_append.mp hs with hs | hs
      · exact h s hs
      · have hs' : s = s' := by simpa using hs
        subst hs'
        have : startAssertion ⟨segs' ++ [s]⟩ = s.closed := startAssertion_concat segs' s
        cases l
        simp_all
  · rw [h3]
    simpa using h

theorem HandlePragma_keeps_closed (SM : SourceManager) (ev : PragmaEvent)
    (l : CodeSegmentList) (i : Nat) (seg : CodeSegment)
    (hseg : l.segments[i]? = some seg) (hclosed : seg.closed = true) :
    (HandlePragma SM ev l).2.segments[i]? = some seg := by
  have hi : i < l.segments.length := by
    by_contra hge
    rw [List.getElem?_eq_none (Nat.le_of_not_lt hge)] at hseg
    exact Option.noConfusion hseg
  rcases HandlePragma_cases SM ev l with ⟨_, h1⟩ | ⟨_, sloc, _, h2⟩ | ⟨sloc, segs, s, _, rfl, hs, h3⟩
  · rw [h1]; exact hseg
  · rw [h2]
    simp only
    rw [List.getElem?_append_left hi]
    exact hseg
  · rw [h3]
    simp only [List.length_append, List.length_singleton] at hi
    by_cases hlt : i < segs.length
    · simp only at hseg ⊢
      rw [List.getElem?_append_left hlt] at hseg ⊢
      exact hseg
    · have hieq : i = segs.length := by omega
      subst hieq
      simp only [List.getElem?_concat_length, Option.some.injEq] at hseg
      subst hseg
      rw [hs] at hclosed
      exact Bool.noConfusion hclosed

theorem HandlePragma_keeps_fid_start (SM : SourceManager) (ev : PragmaEvent)
    (l : CodeSegmentList) (i : Nat) (seg : CodeSegment)
    (hseg : ∃ seg', l.segments[i]? = some seg' ∧ seg'.fid = seg.fid ∧ seg'.start = seg.start) :
    ∃ seg', (HandlePragma SM ev l).2.segments[i]? = some seg' ∧
      seg'.fid = seg.fid ∧ seg'.start = seg.start := by
  obtain ⟨seg0, hseg0, hfid, hstart⟩ := hseg
  have hi : i < l.segments.length := by
    by_contra hge
    rw [List.getElem?_eq_none (Nat.le_of_not_lt hge)] at hseg0
    exact Option.noConfusion hseg0
  rcases HandlePragma_cases SM ev l with ⟨_, h1⟩ | ⟨_, sloc, _, h2⟩ | ⟨sloc, segs, s, _, rfl, hs, h3⟩
  · rw [h1]; exact ⟨seg0, hseg0, hfid, hstart⟩
  · rw [h2]
    simp only
    rw [List.getElem?_append_left hi]
    exact ⟨seg0, hseg0, hfid, hstart⟩
  · rw [h3]
    simp only [List.length_append, List.length_singleton] at hi
    by_cases hlt : i < segs.length
    · simp only at hseg0 ⊢
      rw [List.getElem?_append_left hlt] at hseg0 ⊢
      exact ⟨seg0, hseg0, hfid, hstart⟩
    · have hieq : i = segs.length := by omega
      subst hieq
      simp only [List.getElem?_concat_length, Option.some.injEq] at hseg0
      subst hseg0
      refine ⟨endedSegment SM sloc s, by simp, ?_, ?_⟩
      · simpa [endedSegment] using hfid
      · simpa [endedSegment] using hstart

theorem endAssertion_concat (segs : List CodeSegment) (s : CodeSegment) :
    endAssertion ⟨segs ++ [s]⟩ = !s.closed := by
  simp [endAssertion]

theorem handlePragmas_alternating_ok (SM : SourceManager) (evs : List PragmaEvent) :
    ∀ (b : Bool) (l : CodeSegmentList), alternatesFrom b evs = true →
      (if b then startAssertion l else endAssertion l) = true →
      (handlePragmas SM evs l).1 = Outcome.ok := by
  induction evs with
  | nil => intro b l _ _; rfl
  | cons ev evs ih =>
    intro b l halt hl
    cases ev with
    | start_segment sloc =>
      simp only [alternatesFrom, Bool.and_eq_true] at halt
      obtain ⟨hb, halt⟩ := halt
      subst hb
      simp only [if_true] at hl
      simp only [handlePragmas, HandlePragma, startSegment_ok SM sloc l hl]
      exact ih false _ halt (by simp [endAssertion_concat, startedSegment])
    | end_segment sloc =>
      simp only [alternatesFrom, Bool.and_eq_true, Bool.not_eq_true'] at halt
      obtain ⟨hb, halt⟩ := halt
      subst hb
      simp only [Bool.false_eq_true, if_false] at hl
      obtain ⟨segs, s, rfl, hs⟩ := (endAssertion_iff l).mp hl
      simp only [handlePragmas, HandlePragma, endSegment_ok SM sloc segs s hs]
      exact ih true _ halt (by simp [startAssertion_concat, endedSegment])

theorem startedSegment_start_offset (SM : SourceManager) (sloc : SourceLocation) (fid : FileID)
    (hfid : SM.getFileID sloc = fid) :
    (startedSegment SM sloc).start.offset =
      (lineOffsetIn SM fid (SM.getExpansionLineNumber sloc) : Int) := by
  simp [startedSegment, getLineAndOffset_start, lineOffsetIn, hfid]

theorem endedSegment_end_offset (SM : SourceManager) (sloc : SourceLocation) (s : CodeSegment)
    (fid : FileID) (hfid : SM.getFileID sloc = fid) :
    (endedSegment SM sloc s).end_.offset =
      (lineOffsetIn SM fid (SM.getExpansionLineNumber sloc + 1) : Int) := by
  simp [endedSegment, getLineAndOffset_end, lineOffsetIn, hfid]

theorem alternatesFrom_take (evs : List PragmaEvent) :
    ∀ (b : Bool) (n : Nat), alternatesFrom b evs = true → alternatesFrom b (evs.take n) = true := by
  induction evs with
  | nil => intro b n h; simpa using h
  | cons ev evs ih =>
    intro b n h
    cases n with
    | zero => simp [alternatesFrom]
    | succ n =>
      cases ev with
      | start_segment sloc =>
        simp only [alternatesFrom, Bool.and_eq_true, List.take_succ_cons] at h ⊢
        exact ⟨h.1, ih false n h.2⟩
      | end_segment sloc =>
        simp only [alternatesFrom, Bool.and_eq_true, List.take_succ_cons] at h ⊢
        exact ⟨h.1, ih true n h.2⟩

theorem handlePragmas_ordered (SM : SourceManager) (fid : FileID) (lo hi : Nat)
    (hmono : ∀ L1 L2, lo ≤ L1 → L1 ≤ L2 → L2 ≤ hi →
      lineOffsetIn SM fid L1 ≤ lineOffsetIn SM fid L2)
    (evs : List PragmaEvent) :
    ∀ (b : Bool) (k : Nat) (l : CodeSegmentList),
      alternatesFrom b evs = true →
      (∀ ev ∈ evs, SM.getFileID ev.sloc = fid ∧ k ≤ eventLine SM ev ∧ eventLine SM ev + 1 ≤ hi) →
      List.Pairwise (· < ·) (evs.map (eventLine SM)) →
      lo ≤ k →
      ClosedRangesOrdered l.segments → NonOverlapping l.segments →
      (if b then startAssertion l = true ∧
          ∀ x ∈ l.segments, x.end_.offset ≤ (lineOffsetIn SM fid k : Int)
        else ∃ segs s, l = ⟨segs ++ [s]⟩ ∧ s.closed = false ∧
          s.start.offset ≤ (lineOffsetIn SM fid k : Int)) →
      ClosedRangesOrdered (handlePragmas SM evs l).2.segments ∧
        NonOverlapping (handlePragmas SM evs l).2.segments := by
  induction evs with
  | nil => intro b k l _ _ _ _ hc hn _; exact ⟨hc, hn⟩
  | cons ev evs ih =>
    intro b k l halt hev hlines hk hc hn hinv
    have hhead := hev ev (List.mem_cons_self _ _)
    simp only [List.map_cons, List.pairwise_cons, List.mem_map, forall_exists_index, and_imp,
      forall_apply_eq_imp_iff₂] at hlines
    obtain ⟨hlt, hlines⟩ := hlines
    cases ev with
    | start_segment sloc =>
      simp only [alternatesFrom, Bool.and_eq_true] at halt
      obtain ⟨hb, halt⟩ := halt
      subst hb
      simp only [if_true] at hinv
      obtain ⟨hassert, hbound⟩ := hinv
      simp only [PragmaEvent.sloc, eventLine] at hhead
      obtain ⟨hfid, hkle, hhi⟩ := hhead
      have hstart := startedSegment_start_offset SM sloc fid hfid
      have hm1 : (lineOffsetIn SM fid k : Int) ≤
          (lineOffsetIn SM fid (SM.getExpansionLineNumber sloc) : Int) := by
        exact_mod_cast hmono k _ hk hkle (by omega)
      have hm2 : (lineOffsetIn SM fid (SM.getExpansionLineNumber sloc) : Int) ≤
          (lineOffsetIn SM fid (SM.getExpansionLineNumber sloc + 1) : Int) := by
        exact_mod_cast hmono _ _ (by omega) (by omega) hhi
      simp only [handlePragmas, HandlePragma, startSegment_ok SM sloc l hassert]
      refine ih false (SM.getExpansionLineNumber sloc + 1) _ halt ?_ hlines (by omega) ?_ ?_ ?_
      · intro ev' hev'
        have h1 := hev ev' (List.mem_cons_of_mem _ hev')
        have h2 : SM.getExpansionLineNumber sloc < eventLine SM ev' := hlt ev' hev'
        exact ⟨h1.1, by omega, h1.2.2⟩
      · intro seg hseg hclosed
        rcases List.mem_append.mp hseg with hseg | hseg
        · exact hc seg hseg hclosed
        · have : seg = startedSegment SM sloc := by simpa using hseg
          subst this
          simp [startedSegment] at hclosed
      · unfold NonOverlapping
        rw [List.pairwise_append]
        refine ⟨hn, List.pairwise_singleton _ _, ?_⟩
        intro a ha c hcmem
        have : c = startedSegment SM sloc := by simpa using hcmem
        subst this
        rw [hstart]
        exact (hbound a ha).trans hm1
      · simp only [Bool.false_eq_true, if_false]
        exact ⟨l.segments, startedSegment SM sloc, rfl, rfl, by rw [hstart]; exact hm2⟩
    | end_segment sloc =>
      simp only [alternatesFrom, Bool.and_eq_true, Bool.not_eq_true'] at halt
      obtain ⟨hb, halt⟩ := halt
      subst hb
      simp only [Bool.false_eq_true, if_false] at hinv
      obtain ⟨segs, s, rfl, hopen, hsbound⟩ := hinv
      simp only [PragmaEvent.sloc, eventLine] at hhead
      obtain ⟨hfid, hkle, hhi⟩ := hhead
      have hend := endedSegment_end_offset SM sloc s fid hfid
      have hm1 : (lineOffsetIn SM fid k : Int) ≤
          (lineOffsetIn SM fid (SM.getExpansionLineNumber sloc + 1) : Int) := by
        exact_mod_cast hmono k _ hk (by omega) hhi
      unfold NonOverlapping at hn
      rw [List.pairwise_append] at hn
      obtain ⟨hn1, _, hn3⟩ := hn
      simp only [handlePragmas, HandlePragma, endSegment_ok SM sloc segs s hopen]
      refine ih true (SM.getExpansionLineNumber sloc + 1) _ halt ?_ hlines (by omega) ?_ ?_ ?_
      · intro ev' hev'
        have h1 := hev ev' (List.mem_cons_of_mem _ hev')
        have h2 : SM.getExpansionLineNumber sloc < eventLine SM ev' := hlt ev' hev'
        exact ⟨h1.1, by omega, h1.2.2⟩
      · intro seg hseg hclosed
        rcases List.mem_append.mp hseg with hseg | hseg
        · exact hc seg (List.mem_append_left _ hseg) hclosed
        · have : seg = endedSegment SM sloc s := by simpa using hseg
          subst this
          rw [hend]
          exact hsbound.trans hm1
      · unfold NonOverlapping
        rw [List.pairwise_append]
        refine ⟨hn1, List.pairwise_singleton _ _, ?_⟩
        intro a ha c hcmem
        have : c = endedSegment SM sloc s := by simpa using hcmem
        subst this
        exact hn3 a ha s (List.mem_singleton_self s)
      · simp only [if_true]
        refine ⟨by simp [startAssertion_concat, endedSegment], ?_⟩
        intro x hx
        rcases List.mem_append.mp hx with hx | hx
        · exact ((hn3 x hx s (List.mem_singleton_self s)).trans hsbound).trans hm1
        · have : x = endedSegment SM sloc s := by simpa using hx
          subst this
          rw [hend]

/-! ## C1: one output per marker pair, in order -/

/-- C1. For every well-formed event sequence (the start and end markers of `n`
marker pairs, strictly alternating, start first) delivered to an empty tracker,
no assertion fails, every segment is closed afterwards, and one emission pass
writes exactly `n` outputs, the `i`-th being the output of the `i`-th marker
pair. -/
theorem C1_emit_one_output_per_marker_pair (SM : SourceManager)
    (ps : List (SourceLocation × SourceLocation)) :
    (handlePragmas SM (pairEvents ps) CodeSegmentList.empty).1 = Outcome.ok ∧
    (∀ seg ∈ (handlePragmas SM (pairEvents ps) CodeSegmentList.empty).2.segments,
        seg.closed = true) ∧
    (emit SM (handlePragmas SM (pairEvents ps) CodeSegmentList.empty).2).length = ps.length ∧
    emit SM (handlePragmas SM (pairEvents ps) CodeSegmentList.empty).2 =
      ps.map (pairOutput SM) := by
  have hrun := handlePragmas_pairEvents SM ps CodeSegmentList.empty rfl
  have hemit : emit SM (handlePragmas SM (pairEvents ps) CodeSegmentList.empty).2 =
      ps.map (pairOutput SM) := by
    rw [hrun, emit_eq_map]
    simp [CodeSegmentList.empty, emitSegment_pairSegment]
  refine ⟨by rw [hrun], ?_, by rw [hemit, List.length_map], hemit⟩
  intro seg hseg
  rw [hrun] at hseg
  simp only [CodeSegmentList.empty, List.nil_append, List.mem_map] at hseg
  obtain ⟨p, _, rfl⟩ := hseg
  rfl

/-! ## C2: the emitted text is whole lines -/

/-- C2. For a buffer `buf` of file `fid`, a start marker on line `s` and an end
marker on line `e` of that file with `s ≤ e`, where lines `s` and `e + 1` begin
in the buffer at the offsets the source manager reports for their column 1:
the run leaves one segment, and the text emitted for it is exactly the bytes of
lines `s` through `e` of the buffer. These are `e + 1 - s` lines and each ends
with its newline. -/
theorem C2_emitted_text_is_lines (SM : SourceManager) (fid : FileID) (buf : StringRef)
    (sS sE : SourceLocation) (s e : Nat)
    (hbuf : SM.getBufferData fid = buf) (hlen : buf.length < 2 ^ 64)
    (hSfid : SM.getFileID sS = fid) (hEfid : SM.getFileID sE = fid)
    (hS : SM.getExpansionLineNumber sS = s) (hE : SM.getExpansionLineNumber sE = e)
    (hse : s ≤ e)
    (hos : lineStartOffset buf s = some (SM.getFileOffset (SM.translateLineCol fid s 1)))
    (hoe : lineStartOffset buf (e + 1) =
      some (SM.getFileOffset (SM.translateLineCol fid (e + 1) 1))) :
    emit SM (handlePragmas SM
        [PragmaEvent.start_segment sS, PragmaEvent.end_segment sE] CodeSegmentList.empty).2 =
      [⟨SM.getFileEntryName fid, linesText buf s e⟩] ∧
    (((splitLines buf).drop (s - 1)).take (e + 1 - s)).length = e + 1 - s ∧
    ∀ l ∈ ((splitLines buf).drop (s - 1)).take (e + 1 - s), l.getLast? = some '\n' := by
  have hs1 := (lineStartOffset_eq buf s _ hos).1
  refine ⟨?_, lines_count buf s e _ hs1 hse hoe, lines_terminated buf s e _ hs1 hoe⟩
  have hrun := handlePragmas_pairEvents SM [(sS, sE)] CodeSegmentList.empty rfl
  have hev : pairEvents [(sS, sE)] =
      [PragmaEvent.start_segment sS, PragmaEvent.end_segment sE] := by
    simp [pairEvents]
  rw [hev] at hrun
  rw [hrun, emit_eq_map]
  simp only [CodeSegmentList.empty, List.nil_append, List.map_cons, List.map_nil,
    emitSegment_pairSegment]
  simp only [pairOutput, pairSegment, hSfid, hEfid, hS, hE, hbuf]
  rw [substr_lines buf s e _ _ hlen hse hos hoe]

/-- Witness for C2: content `A\nB\nC\nD\n`, start marker on line 2, end marker on
line 3; the emitted text is `B\nC\n`. -/
theorem C2_emitted_text_is_lines_witness :
    emit demoSM (handlePragmas demoSM
        [PragmaEvent.start_segment (locAt 1 2), PragmaEvent.end_segment (locAt 1 5)]
        CodeSegmentList.empty).2 = [⟨"a.c", "B\nC\n".toList⟩] :=
  (C2_emitted_text_is_lines demoSM ⟨1⟩ "A\nB\nC\nD\n".toList (locAt 1 2) (locAt 1 5) 2 3
    (by decide) (by decide) (by decide) (by decide) (by decide) (by decide) (by decide)
    (by decide) (by decide)).1

/-! ## C3: open segments -/

/-- C3, evaluated on a tracker holding one open segment (a start marker on line 2
of `a.c`, no end marker yet): the segment is open and its end is unset, and
emission nevertheless writes the file name and a text for it, the buffer from the
start offset to its end. -/
theorem C3_open_segment_is_emitted :
    demoOpenSegment.closed = false ∧ demoOpenSegment.end_ = CodeSegmentLoc.unset ∧
    handlePragmas demoSM [PragmaEvent.start_segment (locAt 1 2)] CodeSegmentList.empty =
      (Outcome.ok, ⟨[demoOpenSegment]⟩) ∧
    HandleTopLevelDecl demoSM ⟨⟨[demoOpenSegment]⟩, []⟩ =
      (true, ⟨⟨[demoOpenSegment]⟩, [⟨"a.c", "B\nC\nD\n".toList⟩]⟩) := by
  refine ⟨by decide, by decide, by decide, by decide⟩

/-! ## C4: a start marker while a segment is open -/

/-- C4. When the last segment of the tracker is open, `startSegment` fails on
its assertion and returns the tracker unchanged: nothing is appended and the
open segment keeps its file, start, end and closed flag. -/
theorem C4_startSegment_while_open_fails (SM : SourceManager) (sloc : SourceLocation)
    (l : CodeSegmentList) (s : CodeSegment)
    (hlast : l.segments.getLast? = some s) (hopen : s.closed = false) :
    startSegment SM sloc l =
      (Outcome.assertionFailed "The last segment should be properly closed.", l) := by
  simp [startSegment, startAssertion, hlast, hopen]

/-- Witness for C4: a second start marker right after a first one. -/
theorem C4_startSegment_while_open_fails_witness :
    startSegment demoSM (locAt 1 4) ⟨[startedSegment demoSM (locAt 1 2)]⟩ =
      (Outcome.assertionFailed "The last segment should be properly closed.",
        ⟨[startedSegment demoSM (locAt 1 2)]⟩) :=
  C4_startSegment_while_open_fails demoSM (locAt 1 4) ⟨[startedSegment demoSM (locAt 1 2)]⟩
    (startedSegment demoSM (locAt 1 2)) rfl rfl

/-! ## C5: an end marker while no segment is open -/

/-- C5. When the tracker has no open segment (it is empty, or its last segment
is closed), `endSegment` fails on its assertion and returns the tracker
unchanged: nothing is appended and no segment is modified. -/
theorem C5_endSegment_without_open_fails (SM : SourceManager) (sloc : SourceLocation)
    (l : CodeSegmentList)
    (h : l.segments = [] ∨ ∃ s, l.segments.getLast? = some s ∧ s.closed = true) :
    endSegment SM sloc l =
      (Outcome.assertionFailed "The last segment should be unclosed.", l) := by
  rcases h with h | ⟨s, hlast, hclosed⟩
  · simp [endSegment, h]
  · simp [endSegment, hlast, hclosed]

/-- Witness for C5: an end marker delivered to the empty tracker. -/
theorem C5_endSegment_without_open_fails_witness :
    endSegment demoSM (locAt 1 4) CodeSegmentList.empty =
      (Outcome.assertionFailed "The last segment should be unclosed.", CodeSegmentList.empty) :=
  C5_endSegment_without_open_fails demoSM (locAt 1 4) CodeSegmentList.empty (Or.inl rfl)

/-! ## C6: emission is repeatable -/

/-- C6. An emission pass returns `true`, leaves the tracker's segment sequence
unchanged, and appends to the stream the outputs `emit SM st.segs`; a second
pass right after the first appends the same outputs again. -/
theorem C6_emission_idempotent (SM : SourceManager) (st : PluginState) :
    (HandleTopLevelDecl SM st).2.segs = st.segs ∧
    (HandleTopLevelDecl SM (HandleTopLevelDecl SM st).2).2.segs = st.segs ∧
    (HandleTopLevelDecl SM st).2.outs = st.outs ++ emit SM st.segs ∧
    (HandleTopLevelDecl SM (HandleTopLevelDecl SM st).2).2.outs =
      (HandleTopLevelDecl SM st).2.outs ++ emit SM st.segs ∧
    emit SM (HandleTopLevelDecl SM st).2.segs = emit SM st.segs := by
  have hsegs : (HandleTopLevelDecl SM st).2.segs = st.segs := rfl
  refine ⟨hsegs, rfl, ?_, ?_, by rw [hsegs]⟩
  · rw [HandleTopLevelDecl_outs, emit_eq_map]
  · rw [HandleTopLevelDecl_outs SM (HandleTopLevelDecl SM st).2, hsegs, emit_eq_map]

/-! ## C7: two files -/

/-- C7. Two distinct files `D1` and `D2`, each with one complete marker pair
(both markers of a pair in the same file, the start offset not after the end
offset): emission writes exactly two outputs. The first carries the name of
`D1` and the byte range between the two offsets of the first pair, both resolved
in `D1`, of the buffer of `D1`; the second likewise for `D2`. -/
theorem C7_two_documents_not_mixed (SM : SourceManager) (D1 D2 : FileID)
    (s1 e1 s2 e2 : SourceLocation) (_hne : D1 ≠ D2)
    (hs1 : SM.getFileID s1 = D1) (he1 : SM.getFileID e1 = D1)
    (hs2 : SM.getFileID s2 = D2) (he2 : SM.getFileID e2 = D2)
    (h1 : startOffsetIn SM D1 s1 ≤ endOffsetIn SM D1 e1) (h1' : endOffsetIn SM D1 e1 < 2 ^ 64)
    (h2 : startOffsetIn SM D2 s2 ≤ endOffsetIn SM D2 e2) (h2' : endOffsetIn SM D2 e2 < 2 ^ 64) :
    emit SM (handlePragmas SM
        [PragmaEvent.start_segment s1, PragmaEvent.end_segment e1,
         PragmaEvent.start_segment s2, PragmaEvent.end_segment e2] CodeSegmentList.empty).2 =
      [⟨SM.getFileEntryName D1,
          slice (SM.getBufferData D1) (startOffsetIn SM D1 s1) (endOffsetIn SM D1 e1)⟩,
       ⟨SM.getFileEntryName D2,
          slice (SM.getBufferData D2) (startOffsetIn SM D2 s2) (endOffsetIn SM D2 e2)⟩] := by
  have hrun := handlePragmas_pairEvents SM [(s1, e1), (s2, e2)] CodeSegmentList.empty rfl
  have hev : pairEvents [(s1, e1), (s2, e2)] =
      [PragmaEvent.start_segment s1, PragmaEvent.end_segment e1,
       PragmaEvent.start_segment s2, PragmaEvent.end_segment e2] := by
    simp [pairEvents]
  rw [hev] at hrun
  rw [hrun, emit_eq_map]
  simp only [CodeSegmentList.empty, List.nil_append, List.map_cons, List.map_nil,
    emitSegment_pairSegment]
  simp only [pairOutput, pairSegment, hs1, he1, hs2, he2]
  rw [← substr_eq_slice _ _ _ h1 h1', ← substr_eq_slice _ _ _ h2 h2']
  rfl

/-- Witness for C7: lines 2 to 3 of `a.c` and lines 1 to 2 of `b.c`. -/
theorem C7_two_documents_not_mixed_witness :
    emit demoSM (handlePragmas demoSM
        [PragmaEvent.start_segment (locAt 1 2), PragmaEvent.end_segment (locAt 1 5),
         PragmaEvent.start_segment (locAt 2 0), PragmaEvent.end_segment (locAt 2 3)]
        CodeSegmentList.empty).2 =
      [⟨"a.c", "B\nC\n".toList⟩, ⟨"b.c", "x\nyy\n".toList⟩] :=
  C7_two_documents_not_mixed demoSM ⟨1⟩ ⟨2⟩ (locAt 1 2) (locAt 1 5) (locAt 2 0) (locAt 2 3)
    (by decide) (by decide) (by decide) (by decide) (by decide) (by decide) (by decide)
    (by decide) (by decide)

/-! ## C8: inverted ranges -/

/-- C8, refuted on a closed segment of `a.c` whose end offset 2 is smaller than
its start offset 4 (a start marker on line 3 of `a.c`, then an end marker on
line 1 of `b.c`): emission returns `true` and writes a text for it. -/
theorem C8_inverted_range_counterexample :
    handlePragmas demoSM
        [PragmaEvent.start_segment (locAt 1 4), PragmaEvent.end_segment (locAt 2 0)]
        CodeSegmentList.empty =
      (Outcome.ok, ⟨[demoInvertedSegment]⟩) ∧
    demoInvertedSegment.closed = true ∧
    demoInvertedSegment.end_.offset < demoInvertedSegment.start.offset ∧
    HandleTopLevelDecl demoSM ⟨⟨[demoInvertedSegment]⟩, []⟩ =
      (true, ⟨⟨[demoInvertedSegment]⟩, [⟨"a.c", "C\nD\n".toList⟩]⟩) := by
  refine ⟨by decide, by decide, by decide, by decide⟩

/-- C8, amended. Emission has no error result. For every closed segment whose
end offset is smaller than its start offset, the pass returns `true` and writes
for that segment, at its position in the output, the name of the segment's file
and a text that is a contiguous part of that file's buffer. -/
theorem C8_inverted_range_is_emitted (SM : SourceManager) (l : CodeSegmentList) (i : Nat)
    (seg : CodeSegment) (hseg : l.segments[i]? = some seg) (_hclosed : seg.closed = true)
    (_hinv : seg.end_.offset < seg.start.offset) :
    (HandleTopLevelDecl SM ⟨l, []⟩).1 = true ∧
    (emit SM l).length = l.segments.length ∧
    ∃ o, (emit SM l)[i]? = some o ∧ o.name = SM.getFileEntryName seg.fid ∧
      o.text <:+: SM.getBufferData seg.fid := by
  refine ⟨rfl, by rw [emit_eq_map, List.length_map], emitSegment SM seg, ?_, rfl, ?_⟩
  · rw [emit_eq_map, List.getElem?_map, hseg]
    rfl
  · exact substr_infix _ _ _

/-- Witness for C8 (amended): the inverted segment of the counterexample. -/
theorem C8_inverted_range_is_emitted_witness :
    (HandleTopLevelDecl demoSM ⟨⟨[demoInvertedSegment]⟩, []⟩).1 = true ∧
    (emit demoSM ⟨[demoInvertedSegment]⟩).length = 1 ∧
    ∃ o, (emit demoSM ⟨[demoInvertedSegment]⟩)[0]? = some o ∧ o.name = "a.c" ∧
      o.text <:+: "A\nB\nC\nD\n".toList :=
  C8_inverted_range_is_emitted demoSM ⟨[demoInvertedSegment]⟩ 0
    demoInvertedSegment rfl rfl (by decide)

/-! ## C9: lines without an offset -/

/-- C9, refuted on `b.c` (content `x\nyy\nzzz`, three lines): an end marker on
line 3 resolves to line 4, which has no offset in the buffer, and `endSegment`
still succeeds and stores an offset, 7, the last byte of the buffer. -/
theorem C9_unresolvable_offset_counterexample :
    lineStartOffset (demoSM.getBufferData ⟨2⟩) 4 = none ∧
    demoSM.getExpansionLineNumber (locAt 2 6) = 3 ∧
    endSegment demoSM (locAt 2 6) ⟨[demoOpenSegmentB]⟩ =
      (Outcome.ok, ⟨[⟨⟨2⟩, ⟨2, 2⟩, ⟨4, 7⟩, true⟩]⟩) := by
  refine ⟨by decide, by decide, by decide⟩

/-- C9, amended. Position resolution has no error result: whatever the marker
and the buffer, `startSegment` and `endSegment` fail only on their assertion,
which looks at the tracker alone, and otherwise store the offset the source
manager returns for column 1 of the (possibly adjusted) line. -/
theorem C9_resolution_never_fails (SM : SourceManager) (sloc : SourceLocation)
    (l : CodeSegmentList) :
    ((startSegment SM sloc l).1 = Outcome.ok ↔ startAssertion l = true) ∧
    ((endSegment SM sloc l).1 = Outcome.ok ↔ endAssertion l = true) ∧
    (startAssertion l = true →
      ∃ cs, (startSegment SM sloc l).2.segments.getLast? = some cs ∧
        cs.start.offset = (startOffsetIn SM (SM.getFileID sloc) sloc : Int)) ∧
    (endAssertion l = true →
      ∃ cs, (endSegment SM sloc l).2.segments.getLast? = some cs ∧
        cs.end_.offset = (endOffsetIn SM (SM.getFileID sloc) sloc : Int)) := by
  refine ⟨?_, ?_, ?_, ?_⟩
  · cases h : startAssertion l <;> simp [startSegment, h]
  · constructor
    · intro h
      unfold endSegment at h
      unfold endAssertion
      split at h
      · next s hs =>
        rw [hs]
        by_cases hc : s.closed = true
        · simp [hc] at h
        · simpa using hc
      · simp at h
    · intro h
      obtain ⟨segs, s, rfl, hs⟩ := (endAssertion_iff l).mp h
      rw [endSegment_ok SM sloc segs s hs]
  · intro h
    refine ⟨startedSegment SM sloc, by rw [startSegment_ok SM sloc l h]; simp, ?_⟩
    simp [startedSegment, getLineAndOffset_start, startOffsetIn]
  · intro h
    obtain ⟨segs, s, rfl, hs⟩ := (endAssertion_iff l).mp h
    refine ⟨endedSegment SM sloc s, by rw [endSegment_ok SM sloc segs s hs]; simp, ?_⟩
    simp [endedSegment, getLineAndOffset_end, endOffsetIn]

/-- Witness for C9 (amended): the end marker on the last line of `b.c`. -/
theorem C9_resolution_never_fails_witness :
    ∃ cs, (endSegment demoSM (locAt 2 6)
        ⟨[demoOpenSegmentB]⟩).2.segments.getLast? = some cs ∧
      cs.end_.offset = (endOffsetIn demoSM (demoSM.getFileID (locAt 2 6)) (locAt 2 6) : Int) :=
  (C9_resolution_never_fails demoSM (locAt 2 6)
    ⟨[demoOpenSegmentB]⟩).2.2.2 (by decide)

/-! ## C10: position resolution -/

/-- C10. For a marker at `sloc` on line `L` of file `fid`, `getLineAndOffset`
returns line `L` and the offset of column 1 of line `L` for a start marker, and
line `L + 1` and the offset of column 1 of line `L + 1` for an end marker;
`startSegment` stores the former as the start of the segment it appends, and
`endSegment` stores the latter as the end of the segment it closes. -/
theorem C10_position_resolution (SM : SourceManager) (sloc : SourceLocation) (L : Nat)
    (fid : FileID) (hL : SM.getExpansionLineNumber sloc = L) (hfid : SM.getFileID sloc = fid) :
    getLineAndOffset SM sloc true =
      ((L : Int), (SM.getFileOffset (SM.translateLineCol fid L 1) : Int)) ∧
    getLineAndOffset SM sloc false =
      ((L : Int) + 1, (SM.getFileOffset (SM.translateLineCol fid (L + 1) 1) : Int)) ∧
    (∀ l : CodeSegmentList, startAssertion l = true →
      ∃ cs, (startSegment SM sloc l).2.segments = l.segments ++ [cs] ∧
        cs.start = ⟨(L : Int), (SM.getFileOffset (SM.translateLineCol fid L 1) : Int)⟩) ∧
    (∀ (segs : List CodeSegment) (s : CodeSegment), s.closed = false →
      ∃ cs, (endSegment SM sloc ⟨segs ++ [s]⟩).2.segments = segs ++ [cs] ∧
        cs.end_ = ⟨(L : Int) + 1,
          (SM.getFileOffset (SM.translateLineCol fid (L + 1) 1) : Int)⟩) := by
  subst hL hfid
  refine ⟨getLineAndOffset_start SM sloc, getLineAndOffset_end SM sloc, ?_, ?_⟩
  · intro l hl
    refine ⟨startedSegment SM sloc, by rw [startSegment_ok SM sloc l hl], ?_⟩
    simp [startedSegment, getLineAndOffset_start]
  · intro segs s hs
    refine ⟨endedSegment SM sloc s, by rw [endSegment_ok SM sloc segs s hs], ?_⟩
    simp [endedSegment, getLineAndOffset_end]

/-- Witness for C10: a marker on line 2 of `a.c` (content `A\nB\nC\nD\n`); line 2
begins at offset 2 and line 3 at offset 4. -/
theorem C10_position_resolution_witness :
    getLineAndOffset demoSM (locAt 1 2) true = (2, 2) ∧
    getLineAndOffset demoSM (locAt 1 2) false = (3, 4) ∧
    (∃ cs, (startSegment demoSM (locAt 1 2) CodeSegmentList.empty).2.segments = [] ++ [cs] ∧
      cs.start = ⟨2, 2⟩) ∧
    (∃ cs, (endSegment demoSM (locAt 1 2) ⟨[] ++ [demoOpenSegment]⟩).2.segments = [] ++ [cs] ∧
      cs.end_ = ⟨3, 4⟩) :=
  ⟨(C10_position_resolution demoSM (locAt 1 2) 2 ⟨1⟩ (by decide) (by decide)).1,
   (C10_position_resolution demoSM (locAt 1 2) 2 ⟨1⟩ (by decide) (by decide)).2.1,
   (C10_position_resolution demoSM (locAt 1 2) 2 ⟨1⟩ (by decide) (by decide)).2.2.1
      CodeSegmentList.empty rfl,
   (C10_position_resolution demoSM (locAt 1 2) 2 ⟨1⟩ (by decide) (by decide)).2.2.2
      [] demoOpenSegment rfl⟩

/-! ## C11: at most one open segment, and only at the end -/

/-- C11. In every tracker state reached from the empty tracker by a sequence of
start and end events (the run stops at the first failed assertion, so the state
is the one reached by the calls whose preconditions held), at most one segment
is open and every segment before the last is closed. -/
theorem C11_at_most_one_open_segment (SM : SourceManager) (evs : List PragmaEvent) :
    openCount (handlePragmas SM evs CodeSegmentList.empty).2 ≤ 1 ∧
    ∀ s ∈ (handlePragmas SM evs CodeSegmentList.empty).2.segments.dropLast,
      s.closed = true := by
  have h := handlePragmas_preserves SM (fun l => ∀ s ∈ l.segments.dropLast, s.closed = true)
    (fun ev l hl => HandlePragma_dropLast_closed SM ev l hl) evs CodeSegmentList.empty
    (by simp [CodeSegmentList.empty])
  exact ⟨openCount_le_one_of_dropLast_closed _ h, h⟩

/-! ## C12: what a start and an end event change -/

/-- C12. A successful `endSegment` keeps the length of the sequence and every
segment before the last, and in the last segment changes only the end and the
closed flag, which becomes true. A successful `startSegment` appends one segment
to the unchanged sequence. Hence, over any further run of events, a closed
segment stays exactly as it is, and every segment keeps its file and its
start. -/
theorem C12_lifecycle_frame (SM : SourceManager) (sloc : SourceLocation)
    (l : CodeSegmentList) :
    (∀ l', endSegment SM sloc l = (Outcome.ok, l') →
      l'.segments.length = l.segments.length ∧
      l'.segments.dropLast = l.segments.dropLast ∧
      ∃ s s', l.segments.getLast? = some s ∧ l'.segments.getLast? = some s' ∧
        s.closed = false ∧ s'.closed = true ∧ s'.fid = s.fid ∧ s'.start = s.start) ∧
    (∀ l', startSegment SM sloc l = (Outcome.ok, l') →
      ∃ cs, l'.segments = l.segments ++ [cs]) ∧
    (∀ (evs : List PragmaEvent) (i : Nat) (seg : CodeSegment),
      l.segments[i]? = some seg → seg.closed = true →
      (handlePragmas SM evs l).2.segments[i]? = some seg) ∧
    (∀ (evs : List PragmaEvent) (i : Nat) (seg : CodeSegment),
      l.segments[i]? = some seg →
      ∃ seg', (handlePragmas SM evs l).2.segments[i]? = some seg' ∧
        seg'.fid = seg.fid ∧ seg'.start = seg.start) := by
  refine ⟨?_, ?_, ?_, ?_⟩
  · intro l' h
    rcases HandlePragma_cases SM (PragmaEvent.end_segment sloc) l with
      ⟨h1, _⟩ | ⟨_, _, h2, _⟩ | ⟨sloc', segs, s, hev, rfl, hs, h3⟩
    · exact absurd (by simp [HandlePragma, h]) h1
    · exact absurd h2 (by simp)
    · injection hev with hev
      subst hev
      simp only [HandlePragma, h] at h3
      injection h3 with _ h3
      subst h3
      refine ⟨by simp, by simp, s, endedSegment SM sloc s, by simp, by simp, hs, rfl, rfl, rfl⟩
  · intro l' h
    rcases HandlePragma_cases SM (PragmaEvent.start_segment sloc) l with
      ⟨h1, _⟩ | ⟨_, sloc', hev, h2⟩ | ⟨_, _, _, h3, _⟩
    · exact absurd (by simp [HandlePragma, h]) h1
    · simp only [HandlePragma, h] at h2
      injection h2 with _ h2
      subst h2
      exact ⟨_, rfl⟩
    · exact absurd h3 (by simp)
  · intro evs i seg hseg hclosed
    refine handlePragmas_preserves SM (fun l => l.segments[i]? = some seg) ?_ evs l hseg
    intro ev l hl
    exact HandlePragma_keeps_closed SM ev l i seg hl hclosed
  · intro evs i seg hseg
    refine handlePragmas_preserves SM
      (fun l => ∃ seg', l.segments[i]? = some seg' ∧ seg'.fid = seg.fid ∧ seg'.start = seg.start)
      ?_ evs l ⟨seg, hseg, rfl, rfl⟩
    intro ev l hl
    exact HandlePragma_keeps_fid_start SM ev l i seg hl

/-- Witness for C12: after a marker pair in `a.c` has left one closed segment,
a further marker pair in `b.c` leaves that segment as it was. -/
theorem C12_lifecycle_frame_witness :
    (handlePragmas demoSM
        [PragmaEvent.start_segment (locAt 2 0), PragmaEvent.end_segment (locAt 2 3)]
        ⟨[⟨⟨1⟩, ⟨2, 2⟩, ⟨4, 6⟩, true⟩]⟩).2.segments[0]? = some ⟨⟨1⟩, ⟨2, 2⟩, ⟨4, 6⟩, true⟩ :=
  (C12_lifecycle_frame demoSM (locAt 2 0) ⟨[⟨⟨1⟩, ⟨2, 2⟩, ⟨4, 6⟩, true⟩]⟩).2.2.1
    [PragmaEvent.start_segment (locAt 2 0), PragmaEvent.end_segment (locAt 2 3)] 0
    ⟨⟨1⟩, ⟨2, 2⟩, ⟨4, 6⟩, true⟩ rfl rfl


/-! ## C13: a start event on a tracker without an open segment -/

/-- C13. On a tracker that is empty or whose last segment is closed,
`startSegment` succeeds and the new sequence is the old one with one segment
appended; that segment is open, carries the file of the marker's location, has
as start the position resolved with `start = true`, and has its end unset.
Moreover no assertion fails along a strictly alternating event sequence that
begins with a start event on the empty tracker. -/
theorem C13_startSegment_succeeds (SM : SourceManager) (sloc : SourceLocation)
    (l : CodeSegmentList)
    (h : l.segments = [] ∨ ∃ s, l.segments.getLast? = some s ∧ s.closed = true) :
    (∃ cs, startSegment SM sloc l = (Outcome.ok, ⟨l.segments ++ [cs]⟩) ∧
      cs.closed = false ∧ cs.fid = SM.getFileID sloc ∧
      cs.start = ⟨(getLineAndOffset SM sloc true).1, (getLineAndOffset SM sloc true).2⟩ ∧
      cs.end_ = CodeSegmentLoc.unset) ∧
    (∀ evs : List PragmaEvent, alternatesFrom true evs = true →
      (handlePragmas SM evs CodeSegmentList.empty).1 = Outcome.ok) := by
  have hassert : startAssertion l = true := by
    rcases h with h | ⟨s, hlast, hclosed⟩
    · simp [startAssertion, h]
    · simp [startAssertion, hlast, hclosed]
  refine ⟨⟨startedSegment SM sloc, startSegment_ok SM sloc l hassert, rfl, rfl, rfl, rfl⟩, ?_⟩
  intro evs halt
  exact handlePragmas_alternating_ok SM evs true CodeSegmentList.empty halt rfl

/-- Witness for C13: a start marker on line 2 of `a.c` delivered to the empty
tracker, and the run start, end, start. -/
theorem C13_startSegment_succeeds_witness :
    (∃ cs, startSegment demoSM (locAt 1 2) CodeSegmentList.empty =
        (Outcome.ok, ⟨CodeSegmentList.empty.segments ++ [cs]⟩) ∧
      cs.closed = false ∧ cs.fid = demoSM.getFileID (locAt 1 2) ∧
      cs.start = ⟨(getLineAndOffset demoSM (locAt 1 2) true).1,
        (getLineAndOffset demoSM (locAt 1 2) true).2⟩ ∧
      cs.end_ = CodeSegmentLoc.unset) ∧
    (handlePragmas demoSM
      [PragmaEvent.start_segment (locAt 1 0), PragmaEvent.end_segment (locAt 1 2),
       PragmaEvent.start_segment (locAt 1 4)] CodeSegmentList.empty).1 = Outcome.ok :=
  ⟨(C13_startSegment_succeeds demoSM (locAt 1 2) CodeSegmentList.empty (Or.inl rfl)).1,
   (C13_startSegment_succeeds demoSM (locAt 1 2) CodeSegmentList.empty (Or.inl rfl)).2
     [PragmaEvent.start_segment (locAt 1 0), PragmaEvent.end_segment (locAt 1 2),
      PragmaEvent.start_segment (locAt 1 4)] (by decide)⟩


/-! ## C14: the file in which an end marker is resolved -/

/-- C14, refuted on a segment opened on line 1 of `a.c` and an end marker on
line 2 of `b.c`: `endSegment` stores offset 5, where line 3 begins in `b.c`, the
file of the end marker, and not offset 4, where line 3 begins in `a.c`, the file
of the open segment; emission then cuts the buffer of `a.c` at 5. -/
theorem C14_end_marker_file_counterexample :
    demoOpenSegmentA1.fid = ⟨1⟩ ∧ demoSM.getFileID (locAt 2 2) = ⟨2⟩ ∧
    endSegment demoSM (locAt 2 2) ⟨[demoOpenSegmentA1]⟩ =
      (Outcome.ok, ⟨[⟨⟨1⟩, ⟨1, 0⟩, ⟨3, 5⟩, true⟩]⟩) ∧
    endOffsetIn demoSM ⟨1⟩ (locAt 2 2) = 4 ∧
    endOffsetIn demoSM ⟨2⟩ (locAt 2 2) = 5 ∧
    emit demoSM (endSegment demoSM (locAt 2 2) ⟨[demoOpenSegmentA1]⟩).2 =
      [⟨"a.c", "A\nB\nC".toList⟩] := by
  refine ⟨by decide, by decide, by decide, by decide, by decide, by decide⟩

/-- C14, amended. `endSegment` resolves the end position, line `L + 1` column 1,
in the file of the end marker's own location, and stores it in the last segment,
whose file it leaves unchanged. Emission cuts the buffer of the segment's file
with that offset. So the stored end offset is the offset of line `L + 1` in the
file emission cuts from when the end marker lies in the file of the open
segment. -/
theorem C14_end_resolved_in_marker_file (SM : SourceManager) (sloc : SourceLocation)
    (segs : List CodeSegment) (s : CodeSegment) (hs : s.closed = false) :
    ∃ cs, endSegment SM sloc ⟨segs ++ [s]⟩ = (Outcome.ok, ⟨segs ++ [cs]⟩) ∧
      cs.fid = s.fid ∧
      cs.end_ = ⟨(SM.getExpansionLineNumber sloc : Int) + 1,
        (endOffsetIn SM (SM.getFileID sloc) sloc : Int)⟩ ∧
      (emitSegment SM cs).text = substr (SM.getBufferData s.fid) (toSizeT s.start.offset)
        (toSizeT ((endOffsetIn SM (SM.getFileID sloc) sloc : Int) - s.start.offset)) ∧
      (SM.getFileID sloc = s.fid → cs.end_.offset = (endOffsetIn SM s.fid sloc : Int)) := by
  refine ⟨endedSegment SM sloc s, endSegment_ok SM sloc segs s hs, rfl, ?_, ?_, ?_⟩
  · simp [endedSegment, getLineAndOffset_end, endOffsetIn]
  · simp [emitSegment, endedSegment, getLineAndOffset_end, endOffsetIn]
  · intro hfid
    simp [endedSegment, getLineAndOffset_end, endOffsetIn, hfid]

/-- Witness for C14 (amended): the segment opened on line 1 of `a.c`, closed by
an end marker on line 2 of `a.c`; the stored end is line 3, offset 4. -/
theorem C14_end_resolved_in_marker_file_witness :
    ∃ cs, endSegment demoSM (locAt 1 2) ⟨[] ++ [demoOpenSegmentA1]⟩ =
        (Outcome.ok, ⟨[] ++ [cs]⟩) ∧
      cs.fid = demoOpenSegmentA1.fid ∧
      cs.end_ = ⟨(demoSM.getExpansionLineNumber (locAt 1 2) : Int) + 1,
        (endOffsetIn demoSM (demoSM.getFileID (locAt 1 2)) (locAt 1 2) : Int)⟩ ∧
      (emitSegment demoSM cs).text = substr (demoSM.getBufferData demoOpenSegmentA1.fid)
        (toSizeT demoOpenSegmentA1.start.offset)
        (toSizeT ((endOffsetIn demoSM (demoSM.getFileID (locAt 1 2)) (locAt 1 2) : Int) -
          demoOpenSegmentA1.start.offset)) ∧
      (demoSM.getFileID (locAt 1 2) = demoOpenSegmentA1.fid →
        cs.end_.offset = (endOffsetIn demoSM demoOpenSegmentA1.fid (locAt 1 2) : Int)) :=
  C14_end_resolved_in_marker_file demoSM (locAt 1 2) [] demoOpenSegmentA1 (by decide)

/-! ## C15: segments are ordered and do not overlap -/

/-- C15. For a strictly alternating event sequence that begins with a start
event, all of whose markers lie in one file on strictly increasing lines, where
the offsets of column 1 are non-decreasing in the line number over the lines
`lo` to `hi` that hold the markers and the lines after them: in the state
reached after any number `n` of the events, every closed segment has its start
offset at or before its end offset, every segment ends at or before the start of
the next one, and more generally of every later one. -/
theorem C15_segments_ordered (SM : SourceManager) (fid : FileID) (lo hi : Nat)
    (evs : List PragmaEvent) (n : Nat)
    (halt : alternatesFrom true evs = true)
    (hfile : ∀ ev ∈ evs, SM.getFileID ev.sloc = fid)
    (hrange : ∀ ev ∈ evs, lo ≤ eventLine SM ev ∧ eventLine SM ev + 1 ≤ hi)
    (hlines : List.Pairwise (· < ·) (evs.map (eventLine SM)))
    (hmono : ∀ L1 L2, lo ≤ L1 → L1 ≤ L2 → L2 ≤ hi →
      lineOffsetIn SM fid L1 ≤ lineOffsetIn SM fid L2) :
    ClosedRangesOrdered (handlePragmas SM (evs.take n) CodeSegmentList.empty).2.segments ∧
    ConsecutiveOrdered (handlePragmas SM (evs.take n) CodeSegmentList.empty).2.segments ∧
    NonOverlapping (handlePragmas SM (evs.take n) CodeSegmentList.empty).2.segments := by
  have hmem : ∀ ev ∈ evs.take n, ev ∈ evs := fun ev h => List.mem_of_mem_take h
  have hpw : List.Pairwise (· < ·) ((evs.take n).map (eventLine SM)) := by
    rw [List.map_take]
    exact hlines.sublist (List.take_sublist _ _)
  have h := handlePragmas_ordered SM fid lo hi hmono (evs.take n) true lo CodeSegmentList.empty
    (alternatesFrom_take evs true n halt)
    (fun ev hev => ⟨hfile ev (hmem ev hev), (hrange ev (hmem ev hev)).1,
      (hrange ev (hmem ev hev)).2⟩)
    hpw (Nat.le_refl _)
    (by intro seg hseg; simp [CodeSegmentList.empty] at hseg)
    (by simp [NonOverlapping, CodeSegmentList.empty])
    (by simp [CodeSegmentList.empty, startAssertion])
  exact ⟨h.1, h.2.chain', h.2⟩

/-- Witness for C15: two marker pairs in `a.c` (content `A\nB\nC\nD\n`), on lines
1 to 2 and 3 to 4; lines 1 to 5 begin at offsets 0, 2, 4, 6, 8. -/
theorem C15_segments_ordered_witness :
    ClosedRangesOrdered (handlePragmas demoSM (demoEvents.take 4) CodeSegmentList.empty).2.segments ∧
    ConsecutiveOrdered (handlePragmas demoSM (demoEvents.take 4) CodeSegmentList.empty).2.segments ∧
    NonOverlapping (handlePragmas demoSM (demoEvents.take 4) CodeSegmentList.empty).2.segments :=
  C15_segments_ordered demoSM ⟨1⟩ 1 5 demoEvents 4 (by decide) (by decide) (by decide) (by decide)
    (by intro L1 L2 h1 h2 h3; interval_cases L2 <;> interval_cases L1 <;> decide)


end Segmentizer
